import Mathlib

/-!
# Verification of the Nelder-Mead minimizer core

A shallow embedding of the minimizer core of `src/main.rs`: the `Call` /
`Simplex` data model, the regular-simplex generator, and the `minimize`
engine (order / reflect / expand / contract-outside / contract-inside /
shrink).

Modelling conventions:

* `f32` scores are modelled by `Sc := Option ℚ`: `none` models NaN, and the
  comparison operators `slt`, `sle`, `sgt`, `sge` return `false` whenever
  either operand is NaN, exactly as IEEE float comparisons do.
* `f32` position arithmetic is modelled by exact rational (for the engine)
  or real (for the generator) arithmetic; rounding error is not modelled.
* Panics (`expect` on a NaN comparison, out-of-bounds indexing, the
  `N - 1` underflow at `N = 0`) are modelled by `Except Unit` / `Option`
  failure values.
* Rust's `sort_by` is a stable comparison sort whose comparator panics on
  the first NaN it is handed.  For two or more elements every element of
  the slice takes part in at least one comparison, so the ordering step is
  modelled as: fail whenever some score is NaN (and the slice has at least
  two elements), otherwise return the stable insertion sort, which agrees
  with any stable sort for the total order on non-NaN scores.
* The engine calls the objective at fixed syntactic sites (once per vertex
  at setup, four times per iteration, once per vertex during a shrink);
  since the embedded objective is a pure Lean function, the instrumented
  call count is modelled by adding the number of evaluations performed at
  those sites.
-/

namespace NelderMead

instance {α : Type} [DecidableEq α] : DecidableEq (Except Unit α) := fun a b =>
  match a, b with
  | .error (), .error () => isTrue rfl
  | .error (), .ok _ => isFalse fun h => Except.noConfusion h
  | .ok _, .error () => isFalse fun h => Except.noConfusion h
  | .ok x, .ok y =>
    if h : x = y then isTrue (by rw [h]) else isFalse fun hh => h (Except.ok.inj hh)

/-- Scores: `f32` objective values, `none` models NaN. -/
abbrev Sc := Option ℚ

/-- Float strict less-than: false if either side is NaN. -/
def slt : Sc → Sc → Bool
  | some a, some b => a < b
  | _, _ => false

/-- Float less-or-equal: false if either side is NaN. -/
def sle : Sc → Sc → Bool
  | some a, some b => a ≤ b
  | _, _ => false

/-- Float strict greater-than: false if either side is NaN. -/
def sgt (a b : Sc) : Bool := slt b a

/-- Float greater-or-equal: false if either side is NaN. -/
def sge (a b : Sc) : Bool := sle b a

/-- The spec's `min_like(a, b)`: `a if a < b else b`; when `b` is NaN the
comparison is false and the NaN itself is returned. -/
def min_like (a b : Sc) : Sc := if slt a b then a else b

/-- A fixed-length point in N-dimensional parameter space (`[X; N]`). -/
abbrev Vec (K : Type) (N : ℕ) := Fin N → K

/-- The inputs and outputs of a function call (`struct Call<const N: usize>`). -/
structure Call (N : ℕ) where
  xs : Vec ℚ N
  y : Sc
deriving DecidableEq

instance (N : ℕ) : Inhabited (Call N) := ⟨⟨fun _ => 0, some 0⟩⟩

/-- `struct Simplex<const N: usize>`: N vertices in `n` plus the
distinguished `plus_one` vertex. -/
structure Simplex (K : Type) (N : ℕ) where
  n : Fin N → Vec K N
  plus_one : Vec K N

/-- The `Index` impl: `index == n.len()` addresses `plus_one`, smaller
indices address `n`, larger indices panic (modelled by `none`). -/
def Simplex.index? {K : Type} {N : ℕ} (s : Simplex K N) (i : ℕ) : Option (Vec K N) :=
  if i = N then some s.plus_one
  else if h : i < N then some (s.n ⟨i, h⟩) else none

/-- The `IndexMut` impl, as a functional write: `index == n.len()` writes
`plus_one`, smaller indices write into `n`, larger indices panic. -/
def Simplex.set? {K : Type} {N : ℕ} (s : Simplex K N) (i : ℕ) (v : Vec K N) :
    Option (Simplex K N) :=
  if i = N then some { s with plus_one := v }
  else if h : i < N then some { s with n := Function.update s.n ⟨i, h⟩ v } else none

/-- `Simplex::len`: always `N + 1`. -/
def Simplex.len {K : Type} {N : ℕ} (_ : Simplex K N) : ℕ := N + 1

/-- `regular_simplex::<N>()`, with the host float-`sqrt` primitive passed
in as a parameter of the model. -/
def regular_simplex (N : ℕ) (K : Type) [Field K] (sqrt : K → K) : Simplex K N :=
  let cos_45 : K := sqrt 2 / 2
  let n : K := (N : K)
  let base : K := -(cos_45 / n) * (1 - 1 / sqrt (n + 1))
  let plus_one_value : K := -(1 / sqrt (2 * (n + 1)))
  { n := fun i j => if i = j then cos_45 + base else base
    plus_one := fun _ => plus_one_value }

/-- `regular_simplex_centered_at(scale, center)`: every coordinate of every
vertex of the canonical simplex is transformed by `* scale + center[i]`. -/
def regular_simplex_centered_at (N : ℕ) (K : Type) [Field K] (sqrt : K → K)
    (scale : K) (center : Vec K N) : Simplex K N :=
  let rs := regular_simplex N K sqrt
  { n := fun v i => rs.n v i * scale + center i
    plus_one := fun i => rs.plus_one i * scale + center i }

/-- `dist_from_0` from the `regular_simplex_works` test module. -/
noncomputable def dist_from_0 {N : ℕ} (v : Vec ℝ N) : ℝ :=
  Real.sqrt (∑ i, v i * v i)

/-- The sort comparator: ascending by score. -/
def leB {N : ℕ} (a b : Call N) : Bool := sle a.y b.y

/-- Stable insertion of a call into a sorted list. -/
def insertCall {N : ℕ} (c : Call N) : List (Call N) → List (Call N)
  | [] => [c]
  | d :: l => if leB c d then c :: d :: l else d :: insertCall c l

/-- Stable insertion sort by ascending score. -/
def sortCalls {N : ℕ} : List (Call N) → List (Call N)
  | [] => []
  | c :: l => insertCall c (sortCalls l)

/-- Does some call in the working simplex carry a NaN score? -/
def hasNaN {N : ℕ} (s : List (Call N)) : Bool := s.any fun c => c.y.isNone

/-- The ordering step: `s.sort_by(|a, b| a.y.partial_cmp(&b.y).expect(..))`.
With at least two elements every element is handed to the comparator, so a
NaN score is a fatal panic (`error`); otherwise the stable sort runs. -/
def orderStep {N : ℕ} (s : List (Call N)) : Except Unit (List (Call N)) :=
  if s.length ≤ 1 then .ok s
  else if hasNaN s then .error ()
  else .ok (sortCalls s)

/-- `x_1`: position of the best (index 0) vertex of the sorted simplex. -/
def bestX {N : ℕ} (ss : List (Call N)) : Vec ℚ N := (ss.getD 0 default).xs

/-- `f_1`: score of the best vertex. -/
def f1 {N : ℕ} (ss : List (Call N)) : Sc := (ss.getD 0 default).y

/-- `f_n`: score at index `N - 1` (second worst). -/
def fnScore {N : ℕ} (ss : List (Call N)) : Sc := (ss.getD (N - 1) default).y

/-- `f_{n+1}`: score at index `N` (worst). -/
def fn1Score {N : ℕ} (ss : List (Call N)) : Sc := (ss.getD N default).y

/-- `x_h_k`: position of the vertex at index `h_k = s.len() - 1`. -/
def worstX {N : ℕ} (ss : List (Call N)) : Vec ℚ N :=
  (ss.getD (ss.length - 1) default).xs

/-- `x_c`: sum of the coordinates of all vertices, scaled by `1 / N`. -/
def centroid {N : ℕ} (ss : List (Call N)) : Vec ℚ N :=
  fun i => (ss.map fun c => c.xs i).sum * (1 / (N : ℚ))

/-- `x^k(alpha)`: `x_c * (1 + alpha) - alpha * x_h_k`, coordinatewise. -/
def trial {N : ℕ} (ss : List (Call N)) (alpha : ℚ) : Vec ℚ N :=
  fun i => centroid ss i * (1 + alpha) - alpha * worstX ss i

/-- The reflect / expand / contract-outside / contract-inside phases: four
conditional replacements of the vertex at `h_k`, with all compared values
captured from the sorted simplex `ss` before any mutation. -/
def moves {N : ℕ} (f : Vec ℚ N → Sc) (ss : List (Call N)) : List (Call N) :=
  let h := ss.length - 1
  let x_r := trial ss 1
  let f_r := f x_r
  let s1 := if sle (f1 ss) f_r && slt f_r (fnScore ss)
    then ss.set h ⟨x_r, f_r⟩ else ss
  let x_e := trial ss 2
  let f_e := f x_e
  let s2 := if slt f_r (f1 ss) && slt f_e f_r then s1.set h ⟨x_e, f_e⟩
    else if slt f_r (f1 ss) && sle f_r f_e then s1.set h ⟨x_r, f_r⟩
    else s1
  let x_oc := trial ss (1 / 2)
  let f_oc := f x_oc
  let s3 := if sle (fnScore ss) f_r && slt f_r (fn1Score ss) && sle f_oc f_r
    then s2.set h ⟨x_oc, f_oc⟩ else s2
  let x_ic := trial ss (-(1 / 2))
  let f_ic := f x_ic
  let s4 := if sge f_r (fn1Score ss) && slt f_ic (fn1Score ss) && sle f_oc f_r
    then s3.set h ⟨x_ic, f_ic⟩ else s3
  s4

/-- The shrink trigger:
`(f_n <= f_r && f_r < f_{n+1} && f_oc > f_r) || (if f_r < f_ic then f_r else f_ic) >= f_{n+1}`. -/
def shrinkCond {N : ℕ} (f : Vec ℚ N → Sc) (ss : List (Call N)) : Bool :=
  let f_r := f (trial ss 1)
  let f_oc := f (trial ss (1 / 2))
  let f_ic := f (trial ss (-(1 / 2)))
  (sle (fnScore ss) f_r && slt f_r (fn1Score ss) && sgt f_oc f_r)
    || sge (if slt f_r f_ic then f_r else f_ic) (fn1Score ss)

/-- The shrink body: every vertex is replaced by
`xs[j] = (x_1[j] + s[i].xs[j]) * 0.5` with its score recomputed. -/
def shrinkList {N : ℕ} (f : Vec ℚ N → Sc) (x1 : Vec ℚ N) (l : List (Call N)) :
    List (Call N) :=
  l.map fun c =>
    let xs : Vec ℚ N := fun j => (x1 j + c.xs j) * (1 / 2)
    ⟨xs, f xs⟩

/-- The shrink phase: run the shrink body when the trigger fires. -/
def shrinkPhase {N : ℕ} (f : Vec ℚ N → Sc) (ss : List (Call N))
    (l : List (Call N)) : List (Call N) :=
  if shrinkCond f ss then shrinkList f (bestX ss) l else l

/-- Result of one loop iteration: the new working simplex, the number of
objective evaluations performed, and whether the shrink step fired. -/
structure IterOut (N : ℕ) where
  s : List (Call N)
  evals : ℕ
  fired : Bool
deriving DecidableEq

/-- One iteration of the `while k < iters` body.  The ordering step may
panic on NaN; at `N = 0` the read `s[N - 1]` panics (index underflow). -/
def oneIter {N : ℕ} (f : Vec ℚ N → Sc) (s : List (Call N)) :
    Except Unit (IterOut N) :=
  (orderStep s).bind fun ss =>
    if N = 0 then .error ()
    else
      let l := moves f ss
      .ok ⟨shrinkPhase f ss l, 4 + (if shrinkCond f ss then l.length else 0),
        shrinkCond f ss⟩

/-- Result of a whole run: final working simplex, total objective
evaluations, and how many iterations fired the shrink step. -/
structure RunOut (N : ℕ) where
  s : List (Call N)
  evals : ℕ
  shrinks : ℕ
deriving DecidableEq

/-- The iteration loop, `iters` times. -/
def loop {N : ℕ} (f : Vec ℚ N → Sc) : ℕ → List (Call N) → Except Unit (RunOut N)
  | 0, s => .ok ⟨s, 0, 0⟩
  | k + 1, s =>
    (oneIter f s).bind fun o =>
      (loop f k o.s).map fun r =>
        ⟨r.s, o.evals + r.evals, (if o.fired then 1 else 0) + r.shrinks⟩

/-- The setup loop: one evaluated `Call` per vertex of the input simplex,
in input order. -/
def setup {N : ℕ} (f : Vec ℚ N → Sc) (init : Simplex ℚ N) : List (Call N) :=
  (List.range (N + 1)).map fun i =>
    let xs := (init.index? i).getD default
    ⟨xs, f xs⟩

/-- `minimize` with its instrumentation: the setup performs `N + 1`
evaluations, then the loop runs. -/
def minimizeRun {N : ℕ} (f : Vec ℚ N → Sc) (init : Simplex ℚ N) (iters : ℕ) :
    Except Unit (RunOut N) :=
  (loop f iters (setup f init)).map fun r => ⟨r.s, (N + 1) + r.evals, r.shrinks⟩

/-- `minimize`: the returned value is `s[0]` of the final working simplex,
with no re-sort after the last iteration. -/
def minimize {N : ℕ} (f : Vec ℚ N → Sc) (init : Simplex ℚ N) (iters : ℕ) :
    Except Unit (Call N) :=
  (minimizeRun f init iters).map fun r => r.s.headI

/-- The working simplex after `k` iterations. -/
def stateAfter {N : ℕ} (f : Vec ℚ N → Sc) (init : Simplex ℚ N) (k : ℕ) :
    Except Unit (List (Call N)) :=
  (minimizeRun f init k).map fun r => r.s

/-- State-only iteration, for decomposing a run at its last iteration. -/
def iterN {N : ℕ} (f : Vec ℚ N → Sc) : ℕ → List (Call N) → Except Unit (List (Call N))
  | 0, s => .ok s
  | k + 1, s => (oneIter f s).bind fun o => iterN f k o.s

/-- The spec's centroid formula: `(1/N) * (sum over the N + 1 vertices)`. -/
def centroidSpec {N : ℕ} (s : List (Call N)) : Vec ℚ N :=
  fun i => (1 / (N : ℚ)) * ∑ j ∈ Finset.range (N + 1), (s.getD j default).xs i

/-- The textbook centroid that the code does NOT use: the average of the
`N` best vertices, excluding the worst. -/
def bestNAvg {N : ℕ} (s : List (Call N)) : Vec ℚ N :=
  fun i => (1 / (N : ℚ)) * ∑ j ∈ Finset.range N, (s.getD j default).xs i

/-- The objective-graph invariant: every stored score is the objective's
value at the stored position (true for a pure objective). -/
def IsGraph {N : ℕ} (f : Vec ℚ N → Sc) (s : List (Call N)) : Prop :=
  ∀ c ∈ s, c.y = f c.xs

/-- Concrete example objective: `f([x]) = -x` (pure, never NaN). -/
def exF : Vec ℚ 1 → Sc := fun v => some (-(v 0))

/-- Concrete example simplex: vertices `[1]` and `[2]`. -/
def exInit : Simplex ℚ 1 :=
  { n := fun _ => fun _ => 1, plus_one := fun _ => 2 }

/-- Concrete example objective for the shrink claims: `f([x]) = x`. -/
def exG : Vec ℚ 1 → Sc := fun v => some (v 0)

/-- Concrete sorted two-vertex state `[(0, 0), (1, 1)]`. -/
def exSorted : List (Call 1) :=
  [⟨fun _ => 0, some 0⟩, ⟨fun _ => 1, some 1⟩]

/-- Objective that is NaN exactly at `x = 1` and `0` elsewhere. -/
def exNaNAt1 : Vec ℚ 1 → Sc := fun v => if v 0 = 1 then none else some 0

/-- The scores of a (possibly failed) working-simplex state. -/
def scoresOf {N : ℕ} (e : Except Unit (List (Call N))) : Except Unit (List Sc) :=
  e.map fun l => l.map fun c => c.y

theorem insertCall_length {N : ℕ} (c : Call N) (l : List (Call N)) :
    (insertCall c l).length = l.length + 1 := by
  induction l with
  | nil => rfl
  | cons d t ih =>
    simp only [insertCall]
    split
    · simp
    · simp [ih]

theorem sortCalls_length {N : ℕ} (l : List (Call N)) :
    (sortCalls l).length = l.length := by
  induction l with
  | nil => rfl
  | cons c t ih => simp [sortCalls, insertCall_length, ih]

theorem insertCall_perm {N : ℕ} (c : Call N) (l : List (Call N)) :
    (insertCall c l).Perm (c :: l) := by
  induction l with
  | nil => exact List.Perm.refl _
  | cons d t ih =>
    simp only [insertCall]
    split
    · exact List.Perm.refl _
    · exact (List.Perm.cons d ih).trans (List.Perm.swap c d t)

theorem sortCalls_perm {N : ℕ} (l : List (Call N)) : (sortCalls l).Perm l := by
  induction l with
  | nil => exact List.Perm.refl _
  | cons c t ih => exact (insertCall_perm c (sortCalls t)).trans (ih.cons c)

theorem mem_sortCalls {N : ℕ} {a : Call N} {l : List (Call N)} :
    a ∈ sortCalls l ↔ a ∈ l :=
  (sortCalls_perm l).mem_iff

theorem sle_total {a b : Sc} (ha : a ≠ none) (hb : b ≠ none) :
    sle a b = true ∨ sle b a = true := by
  match a, b with
  | some x, some y =>
    rcases le_total x y with h | h
    · exact Or.inl (by simpa [sle])
    · exact Or.inr (by simpa [sle])
  | none, _ => exact absurd rfl ha
  | some _, none => exact absurd rfl hb

theorem sle_trans {a b c : Sc} (h1 : sle a b = true) (h2 : sle b c = true) :
    sle a c = true := by
  match a, b, c with
  | some x, some y, some z =>
    simp only [sle, decide_eq_true_eq] at h1 h2 ⊢
    exact le_trans h1 h2
  | none, _, _ => simp [sle] at h1
  | some _, none, _ => simp [sle] at h1
  | some _, some _, none => simp [sle] at h2

theorem mem_insertCall {N : ℕ} {a c : Call N} {l : List (Call N)} :
    a ∈ insertCall c l ↔ a = c ∨ a ∈ l := by
  have := (insertCall_perm c l).mem_iff (a := a)
  simpa using this

theorem insertCall_pairwise {N : ℕ} {c : Call N} {l : List (Call N)}
    (hnc : c.y ≠ none) (hnl : ∀ d ∈ l, d.y ≠ none)
    (hl : l.Pairwise fun a b => sle a.y b.y = true) :
    (insertCall c l).Pairwise fun a b => sle a.y b.y = true := by
  induction l with
  | nil => simp [insertCall]
  | cons d t ih =>
    simp only [insertCall]
    split
    · rename_i hcd
      refine List.Pairwise.cons ?_ hl
      intro e he
      rcases List.mem_cons.mp he with rfl | het
      · exact hcd
      · have hde := List.rel_of_pairwise_cons hl het
        exact sle_trans hcd hde
    · rename_i hcd
      have hdt : ∀ d' ∈ t, d'.y ≠ none := fun d' hd' => hnl d' (List.mem_cons_of_mem d hd')
      have hdc : sle d.y c.y = true := by
        rcases sle_total hnc (hnl d (List.mem_cons_self d t)) with h | h
        · exact absurd h (by simpa using hcd)
        · exact h
      refine List.Pairwise.cons ?_ (ih hdt (List.Pairwise.of_cons hl))
      intro e he
      rcases mem_insertCall.mp he with rfl | het
      · exact hdc
      · exact List.rel_of_pairwise_cons hl het

theorem sortCalls_pairwise {N : ℕ} {l : List (Call N)}
    (hn : ∀ c ∈ l, c.y ≠ none) :
    (sortCalls l).Pairwise fun a b => sle a.y b.y = true := by
  induction l with
  | nil => simp [sortCalls]
  | cons c t ih =>
    have hc : c.y ≠ none := hn c (List.mem_cons_self c t)
    have ht : ∀ d ∈ t, d.y ≠ none := fun d hd => hn d (List.mem_cons_of_mem c hd)
    have hst : ∀ d ∈ sortCalls t, d.y ≠ none := fun d hd => ht d (mem_sortCalls.mp hd)
    exact insertCall_pairwise hc hst (ih ht)

theorem getD_set_ne {N : ℕ} {l : List (Call N)} {i j : ℕ} (h : i ≠ j)
    (c d : Call N) : (l.set i c).getD j d = l.getD j d := by
  simp [List.getD_eq_getElem?_getD, List.getElem?_set_ne h]

theorem moves_length {N : ℕ} (f : Vec ℚ N → Sc) (ss : List (Call N)) :
    (moves f ss).length = ss.length := by
  unfold moves
  dsimp only
  split_ifs <;> simp

theorem shrinkList_length {N : ℕ} (f : Vec ℚ N → Sc) (x1 : Vec ℚ N)
    (l : List (Call N)) : (shrinkList f x1 l).length = l.length := by
  simp [shrinkList]

theorem moves_getD_zero {N : ℕ} (f : Vec ℚ N → Sc) (ss : List (Call N))
    (hN : 1 ≤ N) (hlen : ss.length = N + 1) :
    (moves f ss).getD 0 default = ss.getD 0 default := by
  have hne : ss.length - 1 ≠ 0 := by omega
  unfold moves
  dsimp only
  split_ifs <;> simp [List.getD_eq_getElem?_getD, List.getElem?_set_ne hne]

theorem isGraph_sortCalls {N : ℕ} {f : Vec ℚ N → Sc} {s : List (Call N)}
    (h : IsGraph f s) : IsGraph f (sortCalls s) :=
  fun c hc => h c (mem_sortCalls.mp hc)

theorem isGraph_set {N : ℕ} {f : Vec ℚ N → Sc} {l : List (Call N)}
    (h : IsGraph f l) (i : ℕ) (x : Vec ℚ N) :
    IsGraph f (l.set i ⟨x, f x⟩) := by
  intro c hc
  rcases List.mem_or_eq_of_mem_set hc with hmem | rfl
  · exact h c hmem
  · rfl

theorem isGraph_moves {N : ℕ} {f : Vec ℚ N → Sc} {ss : List (Call N)}
    (h : IsGraph f ss) : IsGraph f (moves f ss) := by
  unfold moves
  dsimp only
  split_ifs <;> (repeat' apply isGraph_set) <;> exact h

theorem isGraph_shrinkList {N : ℕ} (f : Vec ℚ N → Sc) (x1 : Vec ℚ N)
    (l : List (Call N)) : IsGraph f (shrinkList f x1 l) := by
  intro c hc
  simp only [shrinkList, List.mem_map] at hc
  obtain ⟨d, _, rfl⟩ := hc
  rfl

theorem isGraph_setup {N : ℕ} (f : Vec ℚ N → Sc) (init : Simplex ℚ N) :
    IsGraph f (setup f init) := by
  intro c hc
  simp only [setup, List.mem_map] at hc
  obtain ⟨i, _, rfl⟩ := hc
  rfl

theorem setup_length {N : ℕ} (f : Vec ℚ N → Sc) (init : Simplex ℚ N) :
    (setup f init).length = N + 1 := by
  simp [setup]

theorem headI_eq_getD {N : ℕ} {l : List (Call N)} (h : l ≠ []) :
    l.headI = l.getD 0 default := by
  cases l with
  | nil => exact absurd rfl h
  | cons a t => rfl

theorem shrinkPhase_length {N : ℕ} (f : Vec ℚ N → Sc) (ss l : List (Call N)) :
    (shrinkPhase f ss l).length = l.length := by
  unfold shrinkPhase
  split <;> simp [shrinkList_length]

theorem isGraph_shrinkPhase {N : ℕ} {f : Vec ℚ N → Sc} {ss l : List (Call N)}
    (hl : IsGraph f l) : IsGraph f (shrinkPhase f ss l) := by
  unfold shrinkPhase
  split
  · exact isGraph_shrinkList f (bestX ss) l
  · exact hl

theorem sortCalls_eq_self_of_short {N : ℕ} {s : List (Call N)}
    (h : s.length ≤ 1) : sortCalls s = s := by
  match s with
  | [] => rfl
  | [c] => rfl
  | a :: b :: t => simp at h

theorem orderStep_ok {N : ℕ} {s t : List (Call N)}
    (h : orderStep s = .ok t) : t = sortCalls s := by
  unfold orderStep at h
  split_ifs at h with h1 h2
  · cases h
    exact (sortCalls_eq_self_of_short h1).symm
  · cases h
    rfl

theorem orderStep_error_iff {N : ℕ} {s : List (Call N)} (h2 : 2 ≤ s.length) :
    orderStep s = .error () ↔ hasNaN s = true := by
  unfold orderStep
  split_ifs with h1 hn
  · omega
  · simp [hn]
  · simp [hn]

theorem oneIter_ok_elim {N : ℕ} {f : Vec ℚ N → Sc} {s : List (Call N)}
    {o : IterOut N} (h : oneIter f s = .ok o) :
    o.s = shrinkPhase f (sortCalls s) (moves f (sortCalls s))
    ∧ o.fired = shrinkCond f (sortCalls s)
    ∧ o.evals = 4 + (if shrinkCond f (sortCalls s) then s.length else 0)
    ∧ N ≠ 0 := by
  unfold oneIter at h
  cases horder : orderStep s with
  | error e => rw [horder] at h; cases h
  | ok t =>
    rw [horder] at h
    simp only [Except.bind] at h
    obtain rfl := orderStep_ok horder
    have hlen : (moves f (sortCalls s)).length = s.length := by
      rw [moves_length, sortCalls_length]
    split_ifs at h with hzero hfire
    · cases h
      refine ⟨rfl, rfl, ?_, hzero⟩
      rw [hlen, if_pos hfire]
    · cases h
      refine ⟨rfl, rfl, ?_, hzero⟩
      rw [if_neg hfire]

theorem oneIter_length {N : ℕ} {f : Vec ℚ N → Sc} {s : List (Call N)}
    {o : IterOut N} (h : oneIter f s = .ok o) : o.s.length = s.length := by
  rw [(oneIter_ok_elim h).1, shrinkPhase_length, moves_length, sortCalls_length]

theorem oneIter_graph {N : ℕ} {f : Vec ℚ N → Sc} {s : List (Call N)}
    {o : IterOut N} (h : oneIter f s = .ok o) (hG : IsGraph f s) :
    IsGraph f o.s := by
  rw [(oneIter_ok_elim h).1]
  exact isGraph_shrinkPhase (isGraph_moves (isGraph_sortCalls hG))

theorem getD_map_shrink {N : ℕ} (f : Vec ℚ N → Sc) (x1 : Vec ℚ N)
    {l : List (Call N)} (h0 : 0 < l.length) :
    (shrinkList f x1 l).getD 0 default =
      ⟨fun j => (x1 j + (l.getD 0 default).xs j) * (1 / 2),
       f fun j => (x1 j + (l.getD 0 default).xs j) * (1 / 2)⟩ := by
  match l, h0 with
  | c :: t, _ => rfl

theorem getD_zero_mem {N : ℕ} {l : List (Call N)} (h0 : 0 < l.length) :
    l.getD 0 default ∈ l := by
  match l, h0 with
  | c :: t, _ => exact List.mem_cons_self c t

theorem shrinkPhase_moves_headI {N : ℕ} {f : Vec ℚ N → Sc}
    {ss : List (Call N)} (hN : 1 ≤ N) (hss : ss.length = N + 1)
    (hG : IsGraph f ss) :
    (shrinkPhase f ss (moves f ss)).headI = ss.headI := by
  have hmlen : (moves f ss).length = N + 1 := by rw [moves_length, hss]
  have hssne : ss ≠ [] := by
    intro hnil
    rw [hnil] at hss
    simp at hss
  have hpne : shrinkPhase f ss (moves f ss) ≠ [] := by
    intro hnil
    have := shrinkPhase_length f ss (moves f ss)
    rw [hnil] at this
    simp [hmlen] at this
  rw [headI_eq_getD hpne, headI_eq_getD hssne]
  unfold shrinkPhase
  split
  · have h0 : 0 < (moves f ss).length := by omega
    rw [getD_map_shrink f (bestX ss) h0, moves_getD_zero f ss hN hss]
    have hxs : (ss.getD 0 default).xs = bestX ss := rfl
    have hhalf : (fun j => (bestX ss j + (ss.getD 0 default).xs j) * (1 / 2))
        = (ss.getD 0 default).xs := by
      funext j
      rw [hxs]
      ring
    have hy : (ss.getD 0 default).y = f (ss.getD 0 default).xs :=
      hG _ (getD_zero_mem (by omega))
    rw [hhalf]
    cases hc : ss.getD 0 default with
    | mk xs y =>
      rw [hc] at hy
      simp only at hy
      simp [hy]
  · exact moves_getD_zero f ss hN hss

theorem loop_ok_inv {N : ℕ} {f : Vec ℚ N → Sc} :
    ∀ (k : ℕ) (s : List (Call N)) (r : RunOut N), loop f k s = .ok r →
      s.length = N + 1 → IsGraph f s →
      r.s.length = N + 1 ∧ IsGraph f r.s
        ∧ r.evals = 4 * k + (N + 1) * r.shrinks := by
  intro k
  induction k with
  | zero =>
    intro s r h hlen hG
    cases h
    exact ⟨hlen, hG, by simp⟩
  | succ k ih =>
    intro s r h hlen hG
    unfold loop at h
    cases hone : oneIter f s with
    | error e => rw [hone] at h; cases h
    | ok o =>
      rw [hone] at h
      simp only [Except.bind] at h
      cases hloop : loop f k o.s with
      | error e => rw [hloop] at h; cases h
      | ok r0 =>
        rw [hloop] at h
        simp only [Except.map] at h
        cases h
        have holen : o.s.length = N + 1 := by rw [oneIter_length hone, hlen]
        have hoG : IsGraph f o.s := oneIter_graph hone hG
        obtain ⟨hr0len, hr0G, hr0e⟩ := ih o.s r0 hloop holen hoG
        have hoe := (oneIter_ok_elim hone).2.2.1
        have hofd := (oneIter_ok_elim hone).2.1
        refine ⟨hr0len, hr0G, ?_⟩
        simp only [hoe, hr0e, hlen]
        cases hfd : shrinkCond f (sortCalls s) <;> simp [hofd, hfd] <;> ring

theorem loop_state_eq {N : ℕ} (f : Vec ℚ N → Sc) :
    ∀ (k : ℕ) (s : List (Call N)),
      (loop f k s).map RunOut.s = iterN f k s := by
  intro k
  induction k with
  | zero => intro s; rfl
  | succ k ih =>
    intro s
    unfold loop iterN
    cases hone : oneIter f s with
    | error e => rfl
    | ok o =>
      simp only [Except.bind]
      cases hloop : loop f k o.s with
      | error e =>
        have := ih o.s
        rw [hloop] at this
        simp only [Except.map]
        exact this
      | ok r0 =>
        have := ih o.s
        rw [hloop] at this
        simp only [Except.map]
        exact this

theorem iterN_succ_right {N : ℕ} (f : Vec ℚ N → Sc) :
    ∀ (k : ℕ) (s : List (Call N)),
      iterN f (k + 1) s = (iterN f k s).bind fun l => (oneIter f l).map IterOut.s := by
  intro k
  induction k with
  | zero =>
    intro s
    show (oneIter f s).bind _ = (Except.ok s).bind fun l => (oneIter f l).map IterOut.s
    cases hone : oneIter f s <;> simp [Except.bind, Except.map, iterN, hone]
  | succ k ih =>
    intro s
    show (oneIter f s).bind (fun o => iterN f (k + 1) o.s)
      = ((oneIter f s).bind fun o => iterN f k o.s).bind fun l => (oneIter f l).map IterOut.s
    cases hone : oneIter f s with
    | error e => rfl
    | ok o =>
      simp only [Except.bind]
      exact ih o.s

theorem stateAfter_eq_iterN {N : ℕ} (f : Vec ℚ N → Sc) (init : Simplex ℚ N)
    (k : ℕ) : stateAfter f init k = iterN f k (setup f init) := by
  unfold stateAfter minimizeRun
  rw [← loop_state_eq]
  cases loop f k (setup f init) <;> rfl

theorem minimize_eq_headI {N : ℕ} (f : Vec ℚ N → Sc) (init : Simplex ℚ N)
    (k : ℕ) : minimize f init k = (stateAfter f init k).map List.headI := by
  unfold minimize stateAfter minimizeRun
  cases loop f k (setup f init) <;> rfl

theorem stateAfter_inv {N : ℕ} {f : Vec ℚ N → Sc} {init : Simplex ℚ N}
    {k : ℕ} {l : List (Call N)} (h : stateAfter f init k = .ok l) :
    l.length = N + 1 ∧ IsGraph f l := by
  unfold stateAfter minimizeRun at h
  cases hloop : loop f k (setup f init) with
  | error e => rw [hloop] at h; cases h
  | ok r =>
    rw [hloop] at h
    simp only [Except.map] at h
    cases h
    have := loop_ok_inv k (setup f init) r hloop (setup_length f init)
      (isGraph_setup f init)
    exact ⟨this.1, this.2.1⟩

theorem setup_headI {N : ℕ} (f : Vec ℚ N → Sc) (init : Simplex ℚ N) :
    (setup f init).headI =
      ⟨(init.index? 0).getD default, f ((init.index? 0).getD default)⟩ := by
  unfold setup
  rw [List.range_succ_eq_map]
  rfl

/-- C5: with `iters = 0` the loop body never runs: the engine performs
exactly `N + 1` objective evaluations (one per vertex at setup), leaves the
working simplex in the unmodified input order, and returns the `Call`
formed from vertex 0 of the input simplex with its single evaluated
score. -/
theorem minimize_zero_iters {N : ℕ} (f : Vec ℚ N → Sc) (init : Simplex ℚ N) :
    minimizeRun f init 0 = .ok ⟨setup f init, N + 1, 0⟩
    ∧ minimize f init 0 =
        .ok ⟨(init.index? 0).getD default, f ((init.index? 0).getD default)⟩ := by
  constructor
  · show Except.map _ (Except.ok _) = _
    simp [Except.map]
  · show Except.map _ (Except.map _ (Except.ok _)) = _
    simp [Except.map, setup_headI]

/-- C6: a run of `iters = k` evaluates the objective `N + 1` times at
setup, then exactly 4 times in every iteration (reflect, expand,
contract-outside and contract-inside candidates are scored
unconditionally), plus `N + 1` more in every iteration whose shrink
condition fires. -/
theorem objective_eval_count {N : ℕ} (f : Vec ℚ N → Sc) (init : Simplex ℚ N)
    (k : ℕ) (r : RunOut N) (h : minimizeRun f init k = .ok r) :
    r.evals = (N + 1) + 4 * k + (N + 1) * r.shrinks := by
  unfold minimizeRun at h
  cases hloop : loop f k (setup f init) with
  | error e => rw [hloop] at h; cases h
  | ok r0 =>
    rw [hloop] at h
    simp only [Except.map] at h
    cases h
    have hinv := loop_ok_inv k (setup f init) r0 hloop (setup_length f init)
      (isGraph_setup f init)
    simp only [hinv.2.2]
    ring

/-- C7: with `N >= 1` (so the slice has at least two elements and every
element is handed to the comparator), the ordering step fails fatally if
and only if some stored score is NaN; when it succeeds, it returns a
permutation of the input that is sorted ascending by score and contains no
NaN, never silently placing a NaN in an undefined position. -/
theorem order_step_nan_fatal {N : ℕ} (s : List (Call N)) (hN : 1 ≤ N)
    (hlen : s.length = N + 1) :
    (orderStep s = .error () ↔ ∃ c ∈ s, c.y = none)
    ∧ ∀ t, orderStep s = .ok t →
        t.Perm s
        ∧ t.Pairwise (fun a b => sle a.y b.y = true)
        ∧ ∀ c ∈ t, c.y ≠ none := by
  have h2 : 2 ≤ s.length := by omega
  constructor
  · rw [orderStep_error_iff h2]
    simp [hasNaN, List.any_eq_true, Option.isNone_iff_eq_none]
  · intro t ht
    have hnn : ¬hasNaN s = true := by
      intro hn
      have := (orderStep_error_iff h2).mpr hn
      rw [this] at ht
      cases ht
    have hnall : ∀ c ∈ s, c.y ≠ none := by
      intro c hc hcy
      apply hnn
      simp only [hasNaN, List.any_eq_true, Option.isNone_iff_eq_none]
      exact ⟨c, hc, hcy⟩
    obtain rfl := orderStep_ok ht
    refine ⟨sortCalls_perm s, sortCalls_pairwise hnall, ?_⟩
    intro c hc
    exact hnall c (mem_sortCalls.mp hc)

theorem map_sum_eq_range {N : ℕ} (l : List (Call N)) (g : Call N → ℚ) :
    (l.map g).sum = ∑ j ∈ Finset.range l.length, g (l.getD j default) := by
  induction l with
  | nil => simp
  | cons c t ih =>
    rw [List.map_cons, List.sum_cons, ih, List.length_cons, Finset.sum_range_succ']
    simp only [List.getD_cons_succ, List.getD_cons_zero]
    ring

/-- C2: the centroid computed each iteration sums ALL `N + 1` vertices of
the working simplex (the current worst included) and scales by `1 / N`; it
is the quantity from which every trial point is generated, and it differs
from the textbook average of the `N` best vertices. -/
theorem centroid_sums_all_vertices {N : ℕ} (s : List (Call N)) (hN : 1 ≤ N)
    (hlen : s.length = N + 1) :
    (∀ i, centroid s i = centroidSpec s i)
    ∧ (∀ a i, trial s a i = centroid s i * (1 + a) - a * worstX s i)
    ∧ centroid exSorted 0 ≠ bestNAvg exSorted 0 := by
  refine ⟨?_, fun a i => rfl, ?_⟩
  · intro i
    unfold centroid centroidSpec
    rw [map_sum_eq_range s fun c => c.xs i, hlen]
    ring
  · unfold centroid bestNAvg exSorted
    norm_num [Finset.sum_range_succ]

/-- C3: the shrink step fires exactly when
`(f_n <= f_r < f_{n+1} and f_oc > f_r) or min_like(f_r, f_ic) >= f_{n+1}`,
where `min_like(a, b)` is `a if a < b else b`; a NaN `f_ic` makes
`min_like` return the NaN, the `>=` comparison false, and so silently
suppresses the second disjunct. -/
theorem shrink_condition_min_like {N : ℕ} (f : Vec ℚ N → Sc)
    (s ss : List (Call N)) :
    (∀ o, oneIter f s = .ok o → o.fired = shrinkCond f (sortCalls s))
    ∧ shrinkCond f ss =
        ((sle (fnScore ss) (f (trial ss 1)) && slt (f (trial ss 1)) (fn1Score ss)
            && sgt (f (trial ss (1 / 2))) (f (trial ss 1)))
          || sge (min_like (f (trial ss 1)) (f (trial ss (-(1 / 2))))) (fn1Score ss))
    ∧ (∀ a : Sc, min_like a none = none)
    ∧ (∀ b : Sc, sge none b = false)
    ∧ (f (trial ss (-(1 / 2))) = none →
        shrinkCond f ss =
          (sle (fnScore ss) (f (trial ss 1)) && slt (f (trial ss 1)) (fn1Score ss)
            && sgt (f (trial ss (1 / 2))) (f (trial ss 1)))) := by
  have hslt : ∀ a : Sc, slt a none = false := fun a => by cases a <;> rfl
  have hsge : ∀ b : Sc, sge none b = false := fun b => by cases b <;> rfl
  refine ⟨fun o ho => (oneIter_ok_elim ho).2.1, rfl, fun a => by
    unfold min_like
    rw [hslt]
    simp, hsge, fun hic => ?_⟩
  unfold shrinkCond
  rw [hic]
  simp [hslt, hsge]

theorem shrinkList_getD {N : ℕ} (f : Vec ℚ N → Sc) (x1 : Vec ℚ N)
    {l : List (Call N)} {i : ℕ} (hi : i < l.length) :
    (shrinkList f x1 l).getD i default =
      ⟨fun j => (x1 j + (l.getD i default).xs j) * (1 / 2),
       f fun j => (x1 j + (l.getD i default).xs j) * (1 / 2)⟩ := by
  unfold shrinkList
  rw [List.getD_eq_getElem?_getD, List.getD_eq_getElem?_getD, List.getElem?_map,
    List.getElem?_eq_getElem hi]
  rfl

/-- C4: whenever the shrink step fires, every vertex (the best included) is
replaced by the position `(x_1 + position[i]) / 2` with its score
recomputed by the objective; the best vertex position is left exactly
unchanged, every other vertex moves halfway toward the best. -/
theorem shrink_update_halves_toward_best {N : ℕ} (f : Vec ℚ N → Sc)
    (ss : List (Call N)) (hN : 1 ≤ N) (hlen : ss.length = N + 1)
    (hfire : shrinkCond f ss = true) :
    shrinkPhase f ss (moves f ss) = shrinkList f (bestX ss) (moves f ss)
    ∧ (∀ i, i < N + 1 →
        (shrinkList f (bestX ss) (moves f ss)).getD i default =
          ⟨fun j => (bestX ss j + ((moves f ss).getD i default).xs j) / 2,
           f fun j => (bestX ss j + ((moves f ss).getD i default).xs j) / 2⟩)
    ∧ ((shrinkPhase f ss (moves f ss)).getD 0 default).xs = bestX ss := by
  have hml : (moves f ss).length = N + 1 := by rw [moves_length, hlen]
  have hphase : shrinkPhase f ss (moves f ss) = shrinkList f (bestX ss) (moves f ss) := by
    unfold shrinkPhase
    rw [if_pos hfire]
  have hhalf : ∀ v : Vec ℚ N,
      (fun j => (bestX ss j + v j) * (1 / 2)) = fun j => (bestX ss j + v j) / 2 := by
    intro v
    funext j
    ring
  refine ⟨hphase, ?_, ?_⟩
  · intro i hi
    rw [shrinkList_getD f (bestX ss) (by omega), hhalf]
  · rw [hphase, shrinkList_getD f (bestX ss) (show 0 < (moves f ss).length by omega),
      moves_getD_zero f ss hN hlen]
    have hxs : (ss.getD 0 default).xs = bestX ss := rfl
    rw [hxs]
    funext j
    show (bestX ss j + bestX ss j) * (1 / 2) = bestX ss j
    ring

unseal Rat.add Rat.mul Rat.inv Rat.sub in
theorem exRun_scores : scoresOf (stateAfter exF exInit 1) = .ok [some (-2), some (-7)] := rfl

unseal Rat.add Rat.mul Rat.inv Rat.sub in
theorem exRun_result : minimize exF exInit 1 = .ok ⟨fun _ => 2, some (-2)⟩ := rfl

/-- C1: for a pure objective and `iters = k + 1 >= 1`, the engine returns
element 0 of the working simplex as ordered by the sort at the start of
the last executed iteration; no re-sort follows the final iteration's
replacements, and on a concrete run the returned call is not the vertex
with the lowest score of the final state. -/
theorem minimize_returns_last_sorted_head {N : ℕ} (f : Vec ℚ N → Sc)
    (init : Simplex ℚ N) (k : ℕ) (c : Call N) (hN : 1 ≤ N)
    (hc : minimize f init (k + 1) = .ok c) :
    (∃ sk, stateAfter f init k = .ok sk ∧ c = (sortCalls sk).headI)
    ∧ scoresOf (stateAfter exF exInit 1) = .ok [some (-2), some (-7)]
    ∧ minimize exF exInit 1 = .ok ⟨fun _ => 2, some (-2)⟩
    ∧ slt (some (-7)) (some (-2)) = true := by
  refine ⟨?_, exRun_scores, exRun_result, by decide⟩
  rw [minimize_eq_headI, stateAfter_eq_iterN, iterN_succ_right] at hc
  cases hsk : iterN f k (setup f init) with
  | error e =>
    rw [hsk] at hc
    cases hc
  | ok sk =>
    rw [hsk] at hc
    simp only [Except.bind] at hc
    have hsk' : stateAfter f init k = .ok sk := by
      rw [stateAfter_eq_iterN]
      exact hsk
    obtain ⟨hlen, hG⟩ := stateAfter_inv hsk'
    cases hone : oneIter f sk with
    | error e =>
      rw [hone] at hc
      cases hc
    | ok o =>
      rw [hone] at hc
      simp only [Except.map] at hc
      cases hc
      refine ⟨sk, hsk', ?_⟩
      rw [(oneIter_ok_elim hone).1]
      exact shrinkPhase_moves_headI hN (by rw [sortCalls_length, hlen])
        (isGraph_sortCalls hG)

/-- C8: for `N >= 1`, every coordinate of every vertex of
`regular_simplex_centered_at(scale, center)` equals the corresponding
coordinate of `regular_simplex()` multiplied by `scale` and offset by the
corresponding `center` component. -/
theorem centered_simplex_affine (K : Type) [Field K] (sqrt : K → K) (N : ℕ)
    (hN : 1 ≤ N) (scale : K) (center : Vec K N) (v : ℕ) (hv : v ≤ N) (i : Fin N) :
    ((regular_simplex_centered_at N K sqrt scale center).index? v).getD (fun _ => 0) i
      = ((regular_simplex N K sqrt).index? v).getD (fun _ => 0) i * scale + center i := by
  unfold regular_simplex_centered_at Simplex.index?
  dsimp only
  by_cases hvn : v = N
  · rw [if_pos hvn, if_pos hvn]
    rfl
  · have hvlt : v < N := lt_of_le_of_ne hv hvn
    rw [if_neg hvn, if_neg hvn, dif_pos hvlt, dif_pos hvlt]
    rfl

/-- C10: a `Simplex<N>` behaves at its interface as one index-addressable
collection of exactly `N + 1` vertices: reads and writes succeed for
indices `0..=N` (`0..N` addressing the `n` array, `N` the `plus_one`
vertex), reads after a successful write see the written vector, and any
index above `N` panics for both reads and writes. -/
theorem simplex_index_interface (K : Type) (N : ℕ) (s : Simplex K N)
    (w : Vec K N) :
    Simplex.len s = N + 1
    ∧ (∀ i : Fin N, s.index? i = some (s.n i))
    ∧ s.index? N = some s.plus_one
    ∧ (∀ i : ℕ, N < i → s.index? i = none ∧ s.set? i w = none)
    ∧ (∀ i : ℕ, i ≤ N → ∃ t : Simplex K N, s.set? i w = some t
        ∧ t.index? i = some w
        ∧ ∀ j : ℕ, j ≤ N → j ≠ i → t.index? j = s.index? j) := by
  refine ⟨rfl, ?_, ?_, ?_, ?_⟩
  · intro i
    unfold Simplex.index?
    rw [if_neg (Nat.ne_of_lt i.isLt), dif_pos i.isLt]
  · unfold Simplex.index?
    rw [if_pos rfl]
  · intro i hi
    unfold Simplex.index? Simplex.set?
    rw [if_neg (by omega), dif_neg (by omega), if_neg (by omega), dif_neg (by omega)]
    exact ⟨rfl, rfl⟩
  · intro i hi
    by_cases hin : i = N
    · subst hin
      refine ⟨{ s with plus_one := w }, ?_, ?_, ?_⟩
      · unfold Simplex.set?
        rw [if_pos rfl]
      · unfold Simplex.index?
        rw [if_pos rfl]
      · intro j hj hji
        have hjlt : j < i := lt_of_le_of_ne hj hji
        unfold Simplex.index?
        simp only [if_neg hji, dif_pos hjlt]
    · have hilt : i < N := lt_of_le_of_ne hi hin
      refine ⟨{ s with n := Function.update s.n ⟨i, hilt⟩ w }, ?_, ?_, ?_⟩
      · unfold Simplex.set?
        rw [if_neg hin, dif_pos hilt]
      · unfold Simplex.index?
        rw [if_neg hin, dif_pos hilt]
        simp [Function.update_same]
      · intro j hj hji
        unfold Simplex.index?
        by_cases hjn : j = N
        · rw [if_pos hjn, if_pos hjn]
        · have hjlt : j < N := lt_of_le_of_ne hj hjn
          simp only [if_neg hjn, dif_pos hjlt]
          simp [Function.update_noteq
            (show (⟨j, hjlt⟩ : Fin N) ≠ ⟨i, hilt⟩ by simp [Fin.ext_iff, hji])]

theorem rs1_axis_dist : ∀ v : Fin 1,
    dist_from_0 ((regular_simplex 1 ℝ Real.sqrt).n v) = 1/2 := by
  have hs2 : Real.sqrt 2 * Real.sqrt 2 = 2 := Real.mul_self_sqrt (by norm_num)
  have hs2ne : Real.sqrt 2 ≠ 0 := ne_of_gt (Real.sqrt_pos.mpr (by norm_num))
  have h1s2 : 1/Real.sqrt 2 = Real.sqrt 2/2 := by
    rw [div_eq_div_iff hs2ne (by norm_num)]
    linear_combination -hs2
  intro v
  unfold dist_from_0 regular_simplex
  dsimp only
  rw [Fin.sum_univ_one]
  have hv : v = 0 := Fin.eq_zero v
  subst hv
  rw [if_pos rfl]
  rw [show ((1:ℕ):ℝ) = 1 from Nat.cast_one]
  rw [show (1:ℝ) + 1 = 2 by norm_num]
  rw [h1s2]
  have hdiag : Real.sqrt 2 / 2 + -(Real.sqrt 2 / 2 / 1) * (1 - Real.sqrt 2 / 2) = 1/2 := by
    linear_combination (1/4) * hs2
  rw [hdiag]
  rw [show (1:ℝ)/2 * (1/2) = (1/2)^2 by norm_num]
  exact Real.sqrt_sq (by norm_num)

theorem rs1_plus_dist :
    dist_from_0 ((regular_simplex 1 ℝ Real.sqrt).plus_one) = 1/2 := by
  have h4 : Real.sqrt 4 = 2 := by
    rw [show (4:ℝ) = 2^2 by norm_num]
    exact Real.sqrt_sq (by norm_num)
  unfold dist_from_0 regular_simplex
  dsimp only
  rw [Fin.sum_univ_one]
  rw [show ((1:ℕ):ℝ) = 1 from Nat.cast_one]
  rw [show (2:ℝ) * (1 + 1) = 4 by norm_num]
  rw [h4]
  rw [show -(1/(2:ℝ)) * -(1/2) = (1/2)^2 by norm_num]
  exact Real.sqrt_sq (by norm_num)

theorem rs2_axis_dist : ∀ v : Fin 2,
    dist_from_0 ((regular_simplex 2 ℝ Real.sqrt).n v) = Real.sqrt (1/3) := by
  have hs2 : Real.sqrt 2 * Real.sqrt 2 = 2 := Real.mul_self_sqrt (by norm_num)
  have hs3 : Real.sqrt 3 * Real.sqrt 3 = 3 := Real.mul_self_sqrt (by norm_num)
  have hs3ne : Real.sqrt 3 ≠ 0 := ne_of_gt (Real.sqrt_pos.mpr (by norm_num))
  have h1s3 : 1/Real.sqrt 3 = Real.sqrt 3/3 := by
    rw [div_eq_div_iff hs3ne (by norm_num)]
    linear_combination -hs3
  have key : (Real.sqrt 2/2 + -(Real.sqrt 2/2/2)*(1 - Real.sqrt 3/3))
        * (Real.sqrt 2/2 + -(Real.sqrt 2/2/2)*(1 - Real.sqrt 3/3))
      + (-(Real.sqrt 2/2/2)*(1 - Real.sqrt 3/3))
        * (-(Real.sqrt 2/2/2)*(1 - Real.sqrt 3/3)) = 1/3 := by
    linear_combination (1/8 + Real.sqrt 3 * Real.sqrt 3/72) * hs2 + (1/36) * hs3
  intro v
  unfold dist_from_0 regular_simplex
  dsimp only
  rw [Fin.sum_univ_two]
  rw [show ((2:ℕ):ℝ) = 2 from Nat.cast_ofNat]
  rw [show (2:ℝ) + 1 = 3 by norm_num]
  rw [h1s3]
  fin_cases v <;> congr 1 <;> split_ifs <;>
    first
      | linear_combination key
      | simp_all [Fin.ext_iff]

theorem rs2_plus_dist :
    dist_from_0 ((regular_simplex 2 ℝ Real.sqrt).plus_one) = Real.sqrt (1/3) := by
  have hs6 : Real.sqrt 6 * Real.sqrt 6 = 6 := Real.mul_self_sqrt (by norm_num)
  have hs6ne : Real.sqrt 6 ≠ 0 := ne_of_gt (Real.sqrt_pos.mpr (by norm_num))
  unfold dist_from_0 regular_simplex
  dsimp only
  rw [Fin.sum_univ_two]
  rw [show ((2:ℕ):ℝ) = 2 from Nat.cast_ofNat]
  rw [show (2:ℝ) * (2 + 1) = 6 by norm_num]
  have hp : -(1/Real.sqrt 6) * -(1/Real.sqrt 6) + -(1/Real.sqrt 6) * -(1/Real.sqrt 6)
      = 1/3 := by
    field_simp
    norm_num
  rw [hp]

/-- C9: for N = 1 and N = 2, all N + 1 vertices of `regular_simplex(N)` are
equidistant from the origin to within an absolute tolerance of 1e-4 (in
the exact-real model of the float computation the distances are equal
outright), and the common distance is nonzero. -/
theorem regular_simplex_equidistant :
    (∀ v : Fin 1, |dist_from_0 ((regular_simplex 1 ℝ Real.sqrt).n v)
        - dist_from_0 ((regular_simplex 1 ℝ Real.sqrt).plus_one)| < 1 / 10000)
    ∧ dist_from_0 ((regular_simplex 1 ℝ Real.sqrt).plus_one) ≠ 0
    ∧ (∀ v : Fin 2, |dist_from_0 ((regular_simplex 2 ℝ Real.sqrt).n v)
        - dist_from_0 ((regular_simplex 2 ℝ Real.sqrt).plus_one)| < 1 / 10000)
    ∧ dist_from_0 ((regular_simplex 2 ℝ Real.sqrt).plus_one) ≠ 0 := by
  refine ⟨?_, ?_, ?_, ?_⟩
  · intro v
    rw [rs1_axis_dist v, rs1_plus_dist]
    norm_num
  · rw [rs1_plus_dist]
    norm_num
  · intro v
    rw [rs2_axis_dist v, rs2_plus_dist]
    norm_num
  · rw [rs2_plus_dist]
    exact Real.sqrt_ne_zero'.mpr (by norm_num)

theorem minimize_returns_last_sorted_head_witness :
    (1:ℕ) ≤ 1
    ∧ minimize exF exInit (0 + 1) = .ok ⟨fun _ => 2, some (-2)⟩
    ∧ scoresOf (stateAfter exF exInit 1) = .ok [some (-2), some (-7)]
    ∧ slt (some (-7)) (some (-2)) = true :=
  ⟨by decide,
   exRun_result,
   (minimize_returns_last_sorted_head exF exInit 0 ⟨fun _ => 2, some (-2)⟩
     (by decide) exRun_result).2.1,
   (minimize_returns_last_sorted_head exF exInit 0 ⟨fun _ => 2, some (-2)⟩
     (by decide) exRun_result).2.2.2⟩

theorem centroid_sums_all_vertices_witness :
    exSorted.length = 1 + 1
    ∧ centroid exSorted 0 = centroidSpec exSorted 0
    ∧ centroid exSorted 0 ≠ bestNAvg exSorted 0 :=
  ⟨rfl,
   (centroid_sums_all_vertices exSorted (by decide) rfl).1 0,
   (centroid_sums_all_vertices exSorted (by decide) rfl).2.2⟩

unseal Rat.add Rat.mul Rat.inv Rat.sub in
theorem shrink_condition_min_like_witness :
    exNaNAt1 (trial exSorted (-(1 / 2))) = none
    ∧ shrinkCond exNaNAt1 exSorted =
        (sle (fnScore exSorted) (exNaNAt1 (trial exSorted 1))
          && slt (exNaNAt1 (trial exSorted 1)) (fn1Score exSorted)
          && sgt (exNaNAt1 (trial exSorted (1 / 2))) (exNaNAt1 (trial exSorted 1)))
    ∧ min_like (some 0) none = none
    ∧ sge none (some 0) = false :=
  ⟨by decide,
   (shrink_condition_min_like exNaNAt1 exSorted exSorted).2.2.2.2 (by decide),
   (shrink_condition_min_like exNaNAt1 exSorted exSorted).2.2.1 (some 0),
   (shrink_condition_min_like exNaNAt1 exSorted exSorted).2.2.2.1 (some 0)⟩

unseal Rat.add Rat.mul Rat.inv Rat.sub in
theorem shrink_update_halves_toward_best_witness :
    shrinkCond exG exSorted = true
    ∧ shrinkPhase exG exSorted (moves exG exSorted)
        = shrinkList exG (bestX exSorted) (moves exG exSorted)
    ∧ ((shrinkPhase exG exSorted (moves exG exSorted)).getD 0 default).xs
        = bestX exSorted :=
  ⟨by decide,
   (shrink_update_halves_toward_best exG exSorted (by decide) rfl (by decide)).1,
   (shrink_update_halves_toward_best exG exSorted (by decide) rfl (by decide)).2.2⟩

theorem minimize_zero_iters_check :
    minimizeRun exF exInit 0 = .ok ⟨setup exF exInit, 1 + 1, 0⟩
    ∧ minimize exF exInit 0 =
        .ok ⟨(exInit.index? 0).getD default, exF ((exInit.index? 0).getD default)⟩ :=
  minimize_zero_iters exF exInit

theorem objective_eval_count_witness :
    minimizeRun exF exInit 0 = .ok ⟨setup exF exInit, 2, 0⟩
    ∧ (⟨setup exF exInit, 2, 0⟩ : RunOut 1).evals
        = (1 + 1) + 4 * 0 + (1 + 1) * (⟨setup exF exInit, 2, 0⟩ : RunOut 1).shrinks :=
  ⟨rfl, objective_eval_count exF exInit 0 _ rfl⟩

theorem order_step_nan_fatal_witness :
    (sortCalls exSorted).Perm exSorted
    ∧ (sortCalls exSorted).Pairwise (fun a b => sle a.y b.y = true) :=
  ⟨((order_step_nan_fatal exSorted (by decide) rfl).2 (sortCalls exSorted) rfl).1,
   ((order_step_nan_fatal exSorted (by decide) rfl).2 (sortCalls exSorted) rfl).2.1⟩

theorem centered_simplex_affine_witness :
    (1:ℕ) ≤ 1
    ∧ ((regular_simplex_centered_at 1 ℚ id 2 fun _ => 3).index? 1).getD (fun _ => 0) 0
        = ((regular_simplex 1 ℚ id).index? 1).getD (fun _ => 0) 0 * 2 + 3 :=
  ⟨by decide,
   centered_simplex_affine ℚ id 1 (by decide) 2 (fun _ => 3) 1 (by decide) 0⟩

theorem simplex_index_interface_witness :
    Simplex.len exInit = 1 + 1
    ∧ exInit.index? 2 = none
    ∧ exInit.set? 2 (fun _ => 0) = none :=
  ⟨(simplex_index_interface ℚ 1 exInit fun _ => 0).1,
   ((simplex_index_interface ℚ 1 exInit fun _ => 0).2.2.2.1 2 (by decide)).1,
   ((simplex_index_interface ℚ 1 exInit fun _ => 0).2.2.2.1 2 (by decide)).2⟩

end NelderMead
